import Mathlib

/-!
Verification of the Hamming(7,4) codec in `hamming_code.py`.

Bit vectors are modelled as `List Nat` whose elements are 0 or 1; the
constant matrices `G`, `H`, `R` are lists of rows, exactly as written in
the source.  Python exceptions are modelled with `Except`; the exception
payload of the fault-injection helpers also carries the state of the
array at the moment the exception is raised, so that "no bit was
flipped" is expressible.  The random bit-flip loop is modelled with an
explicit stream of random draws and a fuel parameter, since the Python
loop (`while True: ...`) has no syntactic bound.
-/

set_option synthInstance.maxSize 1024
set_option maxRecDepth 8192

namespace HammingCode

/-- Generator matrix `Hamming.G` (7×4), row by row as in the source. -/
def G : List (List Nat) :=
  [[1, 1, 0, 1],
   [1, 0, 1, 1],
   [1, 0, 0, 0],
   [0, 1, 1, 1],
   [0, 1, 0, 0],
   [0, 0, 1, 0],
   [0, 0, 0, 1]]

/-- Parity-check matrix `Hamming.H` (3×7), row by row as in the source. -/
def H : List (List Nat) :=
  [[1, 0, 1, 0, 1, 0, 1],
   [0, 1, 1, 0, 0, 1, 1],
   [0, 0, 0, 1, 1, 1, 1]]

/-- Decoder matrix `Hamming.R` (4×7), row by row as in the source. -/
def R : List (List Nat) :=
  [[0, 0, 1, 0, 0, 0, 0],
   [0, 0, 0, 0, 1, 0, 0],
   [0, 0, 0, 0, 0, 1, 0],
   [0, 0, 0, 0, 0, 0, 1]]

/-- Dot product of two integer vectors, as in `np.matmul` row action. -/
def dot (r v : List Nat) : Nat :=
  (List.zipWith (· * ·) r v).sum

/-- Matrix-vector product followed by elementwise `% 2`,
modelling `np.matmul(M, v) % 2` in the source. -/
def matmulMod2 (M : List (List Nat)) (v : List Nat) : List Nat :=
  M.map (fun r => dot r v % 2)

/-- The error syndrome `np.matmul(Hamming.H, codeword) % 2` computed by
`parity_check` and `decoder`. -/
def syndrome (codeword : List Nat) : List Nat :=
  matmulMod2 H codeword

/-- All bit vectors of length `n` (elements 0 or 1). -/
def allVecs : Nat → List (List Nat)
  | 0 => [[]]
  | n + 1 => (allVecs n).flatMap (fun v => [0 :: v, 1 :: v])

/-- Outcome of the syndrome analysis: the three-way status of the spec's
error locator/corrector state machine. -/
inductive ErrorStatus where
  | NoError : ErrorStatus
  | Corrected : Nat → ErrorStatus
  | Uncorrectable : ErrorStatus
deriving DecidableEq, Repr

/-- Encoder `Hamming.encoder`: `np.matmul(Hamming.G, input) % 2` on a
pre-validated 4-bit vector (input validation by `check_input` is an
external collaborator; well-formedness appears as hypotheses). -/
def encoder (input : List Nat) : List Nat :=
  matmulMod2 G input

/-- Parity check `Hamming.parity_check` on a pre-validated 7-bit
codeword.  The source only prints; the observable outcome is the
syndrome together with the reported status.  The `list.index` call can
raise `ValueError`, modelled by the `Except` error case. -/
def parity_check (codeword : List Nat) : Except String (List Nat × ErrorStatus) :=
  let error_syndrome := syndrome codeword
  let sum_error_syndrome := error_syndrome.sum
  if sum_error_syndrome = 0 then
    .ok (error_syndrome, .NoError)
  else if sum_error_syndrome = 1 then
    .ok (error_syndrome, .Uncorrectable)
  else
    match (List.transpose H).findIdx? (· == error_syndrome) with
    | some list_parity_index => .ok (error_syndrome, .Corrected (list_parity_index + 1))
    | none => .error "ValueError: x not in list"

/-- Decoder `Hamming.decoder` on a pre-validated 7-bit codeword.  The
result records the status, the recovered 4-bit message when one is
produced, and the final state of the codeword array (which the source
mutates in place when it corrects a bit).  The `list.index` call in the
weight-2/3 branch can raise `ValueError`, modelled by the `Except`
error case. -/
def decoder (codeword : List Nat) :
    Except String (ErrorStatus × Option (List Nat) × List Nat) :=
  let error_syndrome := syndrome codeword
  let sum_error_syndrome := error_syndrome.sum
  if sum_error_syndrome = 0 then
    .ok (.NoError, some (matmulMod2 R codeword), codeword)
  else if sum_error_syndrome = 1 then
    .ok (.Uncorrectable, none, codeword)
  else
    match (List.transpose H).findIdx? (· == error_syndrome) with
    | some list_parity_index =>
      let bitflip_pos := list_parity_index + 1
      let corrected :=
        codeword.set (bitflip_pos - 1)
          (if codeword.getD (bitflip_pos - 1) 0 = 0 then 1 else 0)
      .ok (.Corrected bitflip_pos, some (matmulMod2 R corrected), corrected)
    | none => .error "ValueError: x not in list"

/-- Status component of the decoder result (`none` when the decoder
raises). -/
def decodeStatus (codeword : List Nat) : Option ErrorStatus :=
  (decoder codeword).toOption.map (fun r => r.1)

/-- Recovered message of the decoder result: `some m` exactly when the
decoder returns normally and produces a 4-bit message. -/
def decodeMsg (codeword : List Nat) : Option (List Nat) :=
  match decoder codeword with
  | .ok (_, some m, _) => some m
  | _ => none

/-- Final state of the codeword array after the decoder runs (`none`
when the decoder raises). -/
def decodeFinal (codeword : List Nat) : Option (List Nat) :=
  (decoder codeword).toOption.map (fun r => r.2.2)

/-- Checks whether an optional status is a `Corrected` outcome. -/
def isCorrected : Option ErrorStatus → Bool
  | some (.Corrected _) => true
  | _ => false

/-- Python indexing of a sequence of length `len` at a possibly negative
index `i`: negative indices count from the end; `none` models an
`IndexError`. -/
def pyIndex (len : Nat) (i : Int) : Option Nat :=
  if 0 ≤ i then
    if i < (len : Int) then some i.toNat else none
  else
    if 0 ≤ i + (len : Int) then some (i + (len : Int)).toNat else none

/-- Fault injector `Support.bitflip_specific` on a pre-validated 7-bit
array.  The index is a Python `int`, hence `Int` here.  On error the
payload carries the message and the state of the array when the
exception was raised (the guard runs before any assignment, so it is
the unmodified input). -/
def bitflip_specific (x : List Nat) (bit_to_flip : Int) :
    Except (String × List Nat) (List Nat) :=
  if bit_to_flip > 6 then
    .error ("ValueError: The codeword has only 7 bits.", x)
  else
    match pyIndex x.length bit_to_flip with
    | some i => .ok (x.set i (1 - x.getD i 0))
    | none => .error ("IndexError: index out of bounds", x)

/-- Codeword produced by a successful `bitflip_specific` call (the input
unchanged when the call raises); used to name the flipped codeword in
statements. -/
def inject_fault_at (x : List Nat) (bit_to_flip : Int) : List Nat :=
  (bitflip_specific x bit_to_flip).toOption.getD x

/-- Loop body of `Support.bitflip_rand`: on each iteration draw
`i = stream t`, flip `x[i]` if `i` was not flipped before, and stop as
soon as the set of flipped positions has size `number_of_bits_to_flip`.
`fuel` bounds the number of iterations we unfold; `none` means the loop
has not terminated within `fuel` iterations. -/
def bitflipRandLoop (x : List Nat) (flipped_bits : List Nat)
    (number_of_bits_to_flip : Nat) (stream : Nat → Fin 7) (t fuel : Nat) :
    Option (List Nat) :=
  match fuel with
  | 0 => none
  | fuel + 1 =>
    let i : Nat := (stream t).val
    let x' := if flipped_bits.contains i then x else x.set i (1 - x.getD i 0)
    let flipped' := if flipped_bits.contains i then flipped_bits else i :: flipped_bits
    if flipped'.length = number_of_bits_to_flip then some x'
    else bitflipRandLoop x' flipped' number_of_bits_to_flip stream (t + 1) fuel

/-- Fault injector `Support.bitflip_rand` on a pre-validated 7-bit
array.  `stream` supplies the successive draws of `random.randint(0, 6)`
and `fuel` bounds the loop unfolding; the outer `none` means the loop
did not terminate within `fuel` iterations.  On the `ValueError` the
payload carries the unmodified array, as the guard runs before the
loop. -/
def bitflip_rand (x : List Nat) (number_of_bits_to_flip : Nat)
    (stream : Nat → Fin 7) (fuel : Nat) :
    Option (Except (String × List Nat) (List Nat)) :=
  if number_of_bits_to_flip > 2 then
    some (.error ("ValueError: The Hamming Code only allows detecting at most two bitflips.", x))
  else
    (bitflipRandLoop x [] number_of_bits_to_flip stream 0 fuel).map .ok

instance exceptDecidableEq {ε α : Type} [DecidableEq ε] [DecidableEq α] :
    DecidableEq (Except ε α) := fun a b =>
  match a, b with
  | .error e, .error f => decidable_of_iff (e = f) (by simp)
  | .error _, .ok _ => .isFalse (fun hc => by cases hc)
  | .ok _, .error _ => .isFalse (fun hc => by cases hc)
  | .ok u, .ok v => decidable_of_iff (u = v) (by simp)

/-- Every 0/1 vector of length `n` is enumerated by `allVecs n`. -/
theorem mem_allVecs : ∀ {c : List Nat} {n : Nat}, c.length = n →
    (∀ b ∈ c, b = 0 ∨ b = 1) → c ∈ allVecs n := by
  intro c
  induction c with
  | nil =>
    intro n h _
    subst h
    simp [allVecs]
  | cons b t ih =>
    intro n h hb
    subst h
    simp only [List.length_cons, allVecs]
    rw [List.mem_flatMap]
    refine ⟨t, ih rfl (fun x hx => hb x (List.mem_cons_of_mem _ hx)), ?_⟩
    rcases hb b (List.mem_cons_self b t) with h0 | h1
    · subst h0; simp
    · subst h1; simp

/-- Every member of `allVecs n` is a 0/1 vector of length `n`. -/
theorem allVecs_mem : ∀ {n : Nat} {c : List Nat}, c ∈ allVecs n →
    c.length = n ∧ ∀ b ∈ c, b = 0 ∨ b = 1 := by
  intro n
  induction n with
  | zero =>
    intro c hc
    simp only [allVecs, List.mem_singleton] at hc
    subst hc
    simp
  | succ n ih =>
    intro c hc
    simp only [allVecs, List.mem_flatMap] at hc
    obtain ⟨v, hv, hcv⟩ := hc
    obtain ⟨hvlen, hvbits⟩ := ih hv
    have : c = 0 :: v ∨ c = 1 :: v := by
      simpa using hcv
    rcases this with h | h <;> subst h
    · refine ⟨by simp [hvlen], ?_⟩
      intro b hb
      rcases List.mem_cons.mp hb with h0 | h0
      · exact Or.inl h0
      · exact hvbits b h0
    · refine ⟨by simp [hvlen], ?_⟩
      intro b hb
      rcases List.mem_cons.mp hb with h0 | h0
      · exact Or.inr h0
      · exact hvbits b h0

/-- C1: for every 4-bit message `m` (elements 0 or 1), decoding the
codeword produced by the encoder yields status `NoError` and a recovered
message equal to `m` (and the codeword array is left unchanged). -/
theorem decode_encode_roundtrip (m : List Nat) (hlen : m.length = 4)
    (hbits : ∀ b ∈ m, b = 0 ∨ b = 1) :
    decoder (encoder m) = .ok (.NoError, some m, encoder m) := by
  have hall : ∀ x ∈ allVecs 4,
      decoder (encoder x) = .ok (.NoError, some x, encoder x) := by decide
  exact hall m (mem_allVecs hlen hbits)

/-- Witness for C1 at the spec's concrete message `[1,0,1,0]`. -/
theorem decode_encode_roundtrip_witness :
    decoder (encoder [1, 0, 1, 0]) =
      .ok (.NoError, some [1, 0, 1, 0], encoder [1, 0, 1, 0]) :=
  decode_encode_roundtrip [1, 0, 1, 0] (by decide) (by decide)

/-- C2: for every 4-bit message `m` and position `p` in 1..7, flipping
bit `p` of the encoder's codeword succeeds, and decoding the flipped
codeword yields `Uncorrectable` with no recovered message when the
flipped codeword's syndrome has Hamming weight 1, and otherwise yields
`Corrected p` with recovered message `m`. -/
theorem decode_single_flip (m : List Nat) (p : Nat) (hlen : m.length = 4)
    (hbits : ∀ b ∈ m, b = 0 ∨ b = 1) (hp1 : 1 ≤ p) (hp7 : p ≤ 7) :
    bitflip_specific (encoder m) ((p : Int) - 1) =
      .ok (inject_fault_at (encoder m) ((p : Int) - 1)) ∧
    ((syndrome (inject_fault_at (encoder m) ((p : Int) - 1))).sum = 1 →
      decoder (inject_fault_at (encoder m) ((p : Int) - 1)) =
        .ok (.Uncorrectable, none, inject_fault_at (encoder m) ((p : Int) - 1))) ∧
    ((syndrome (inject_fault_at (encoder m) ((p : Int) - 1))).sum ≠ 1 →
      decodeStatus (inject_fault_at (encoder m) ((p : Int) - 1)) = some (.Corrected p) ∧
      decodeMsg (inject_fault_at (encoder m) ((p : Int) - 1)) = some m) := by
  have hall : ∀ x ∈ allVecs 4, ∀ q ∈ List.range 8, 1 ≤ q →
      (bitflip_specific (encoder x) ((q : Int) - 1) =
        .ok (inject_fault_at (encoder x) ((q : Int) - 1)) ∧
      ((syndrome (inject_fault_at (encoder x) ((q : Int) - 1))).sum = 1 →
        decoder (inject_fault_at (encoder x) ((q : Int) - 1)) =
          .ok (.Uncorrectable, none, inject_fault_at (encoder x) ((q : Int) - 1))) ∧
      ((syndrome (inject_fault_at (encoder x) ((q : Int) - 1))).sum ≠ 1 →
        decodeStatus (inject_fault_at (encoder x) ((q : Int) - 1)) = some (.Corrected q) ∧
        decodeMsg (inject_fault_at (encoder x) ((q : Int) - 1)) = some x)) := by decide
  exact hall m (mem_allVecs hlen hbits) p (List.mem_range.mpr (by omega)) hp1

/-- Witness for C2 at message `[1,0,1,0]` and position 3 (a weight-2
syndrome, hence a corrected outcome). -/
theorem decode_single_flip_witness :
    bitflip_specific (encoder [1, 0, 1, 0]) ((3 : Int) - 1) =
      .ok (inject_fault_at (encoder [1, 0, 1, 0]) ((3 : Int) - 1)) ∧
    ((syndrome (inject_fault_at (encoder [1, 0, 1, 0]) ((3 : Int) - 1))).sum = 1 →
      decoder (inject_fault_at (encoder [1, 0, 1, 0]) ((3 : Int) - 1)) =
        .ok (.Uncorrectable, none, inject_fault_at (encoder [1, 0, 1, 0]) ((3 : Int) - 1))) ∧
    ((syndrome (inject_fault_at (encoder [1, 0, 1, 0]) ((3 : Int) - 1))).sum ≠ 1 →
      decodeStatus (inject_fault_at (encoder [1, 0, 1, 0]) ((3 : Int) - 1)) =
        some (.Corrected 3) ∧
      decodeMsg (inject_fault_at (encoder [1, 0, 1, 0]) ((3 : Int) - 1)) =
        some [1, 0, 1, 0]) :=
  decode_single_flip [1, 0, 1, 0] 3 (by decide) (by decide) (by decide) (by decide)

/-- C3: for every 7-bit 0/1 vector `c`, the decoder's action is fully
determined by the syndrome weight: weight 0 reports no error and leaves
`c` unchanged; weight 1 reports uncorrectable and leaves `c` unchanged;
weight 2 or 3 locates the unique 1-based index `p` of the column of `H`
equal to the syndrome, reports `Corrected p`, and flips exactly the bit
of `c` at position `p`. -/
theorem decoder_syndrome_cases (c : List Nat) (hlen : c.length = 7)
    (hbits : ∀ b ∈ c, b = 0 ∨ b = 1) :
    ((syndrome c).sum = 0 → decoder c = .ok (.NoError, some (matmulMod2 R c), c)) ∧
    ((syndrome c).sum = 1 → decoder c = .ok (.Uncorrectable, none, c)) ∧
    ((syndrome c).sum = 2 ∨ (syndrome c).sum = 3 →
      ∃ p ∈ List.range 8, 1 ≤ p ∧
        (List.transpose H).getD (p - 1) [] = syndrome c ∧
        (List.transpose H).count (syndrome c) = 1 ∧
        decoder c =
          .ok (.Corrected p,
            some (matmulMod2 R (c.set (p - 1) (if c.getD (p - 1) 0 = 0 then 1 else 0))),
            c.set (p - 1) (if c.getD (p - 1) 0 = 0 then 1 else 0))) := by
  have hall : ∀ x ∈ allVecs 7,
      (((syndrome x).sum = 0 → decoder x = .ok (.NoError, some (matmulMod2 R x), x)) ∧
      ((syndrome x).sum = 1 → decoder x = .ok (.Uncorrectable, none, x)) ∧
      ((syndrome x).sum = 2 ∨ (syndrome x).sum = 3 →
        ∃ p ∈ List.range 8, 1 ≤ p ∧
          (List.transpose H).getD (p - 1) [] = syndrome x ∧
          (List.transpose H).count (syndrome x) = 1 ∧
          decoder x =
            .ok (.Corrected p,
              some (matmulMod2 R (x.set (p - 1) (if x.getD (p - 1) 0 = 0 then 1 else 0))),
              x.set (p - 1) (if x.getD (p - 1) 0 = 0 then 1 else 0)))) := by decide
  exact hall c (mem_allVecs hlen hbits)

/-- Witness for C3 at the corrupted codeword `[1,0,0,1,0,1,0]` (the
concrete scenario codeword with bit position 3 flipped). -/
theorem decoder_syndrome_cases_witness :
    ((syndrome [1, 0, 0, 1, 0, 1, 0]).sum = 0 →
      decoder [1, 0, 0, 1, 0, 1, 0] =
        .ok (.NoError, some (matmulMod2 R [1, 0, 0, 1, 0, 1, 0]), [1, 0, 0, 1, 0, 1, 0])) ∧
    ((syndrome [1, 0, 0, 1, 0, 1, 0]).sum = 1 →
      decoder [1, 0, 0, 1, 0, 1, 0] = .ok (.Uncorrectable, none, [1, 0, 0, 1, 0, 1, 0])) ∧
    ((syndrome [1, 0, 0, 1, 0, 1, 0]).sum = 2 ∨ (syndrome [1, 0, 0, 1, 0, 1, 0]).sum = 3 →
      ∃ p ∈ List.range 8, 1 ≤ p ∧
        (List.transpose H).getD (p - 1) [] = syndrome [1, 0, 0, 1, 0, 1, 0] ∧
        (List.transpose H).count (syndrome [1, 0, 0, 1, 0, 1, 0]) = 1 ∧
        decoder [1, 0, 0, 1, 0, 1, 0] =
          .ok (.Corrected p,
            some (matmulMod2 R ([1, 0, 0, 1, 0, 1, 0].set (p - 1)
              (if [1, 0, 0, 1, 0, 1, 0].getD (p - 1) 0 = 0 then 1 else 0))),
            [1, 0, 0, 1, 0, 1, 0].set (p - 1)
              (if [1, 0, 0, 1, 0, 1, 0].getD (p - 1) 0 = 0 then 1 else 0))) :=
  decoder_syndrome_cases [1, 0, 0, 1, 0, 1, 0] (by decide) (by decide)

/-- C4: for every 7-bit 0/1 vector, the decoder returns a result value
(never raises); the recovered message is absent exactly when the status
is `Uncorrectable`, and when present it equals `R` applied to the final
(possibly corrected) codeword; the status is one of the three variants
`NoError`, `Uncorrectable`, `Corrected p`. -/
theorem decoder_result_contract (c : List Nat) (hlen : c.length = 7)
    (hbits : ∀ b ∈ c, b = 0 ∨ b = 1) :
    (decoder c).isOk = true ∧
    (decodeMsg c = none ↔ decodeStatus c = some .Uncorrectable) ∧
    (decodeMsg c ≠ none → decodeMsg c = (decodeFinal c).map (matmulMod2 R)) ∧
    (decodeStatus c = some .NoError ∨ decodeStatus c = some .Uncorrectable ∨
      ∃ p ∈ List.range 8, decodeStatus c = some (.Corrected p)) := by
  have hall : ∀ x ∈ allVecs 7,
      ((decoder x).isOk = true ∧
      (decodeMsg x = none ↔ decodeStatus x = some .Uncorrectable) ∧
      (decodeMsg x ≠ none → decodeMsg x = (decodeFinal x).map (matmulMod2 R)) ∧
      (decodeStatus x = some .NoError ∨ decodeStatus x = some .Uncorrectable ∨
        ∃ p ∈ List.range 8, decodeStatus x = some (.Corrected p))) := by decide
  exact hall c (mem_allVecs hlen hbits)

/-- Witness for C4 at the weight-1-syndrome codeword `[0,0,1,1,0,1,0]`
(the concrete scenario codeword with bit position 1 flipped), an
uncorrectable outcome. -/
theorem decoder_result_contract_witness :
    (decoder [0, 0, 1, 1, 0, 1, 0]).isOk = true ∧
    (decodeMsg [0, 0, 1, 1, 0, 1, 0] = none ↔
      decodeStatus [0, 0, 1, 1, 0, 1, 0] = some .Uncorrectable) ∧
    (decodeMsg [0, 0, 1, 1, 0, 1, 0] ≠ none →
      decodeMsg [0, 0, 1, 1, 0, 1, 0] =
        (decodeFinal [0, 0, 1, 1, 0, 1, 0]).map (matmulMod2 R)) ∧
    (decodeStatus [0, 0, 1, 1, 0, 1, 0] = some .NoError ∨
      decodeStatus [0, 0, 1, 1, 0, 1, 0] = some .Uncorrectable ∨
      ∃ p ∈ List.range 8, decodeStatus [0, 0, 1, 1, 0, 1, 0] = some (.Corrected p)) :=
  decoder_result_contract [0, 0, 1, 1, 0, 1, 0] (by decide) (by decide)

/-- C5: the seven columns of `H` are distinct and are exactly the
nonzero vectors of GF(2)³, and for every 7-bit 0/1 vector whose syndrome
has weight at least 2 the column search succeeds, so the `list.index`
error branch in `parity_check` and `decoder` is unreachable. -/
theorem syndrome_lookup_total (c : List Nat) (hlen : c.length = 7)
    (hbits : ∀ b ∈ c, b = 0 ∨ b = 1) :
    (List.transpose H).Nodup ∧
    (∀ v ∈ allVecs 3, (v ∈ List.transpose H ↔ v ≠ [0, 0, 0])) ∧
    (2 ≤ (syndrome c).sum →
      ((List.transpose H).findIdx? (· == syndrome c)).isSome = true ∧
      (parity_check c).isOk = true ∧ (decoder c).isOk = true) := by
  refine ⟨by decide, by decide, ?_⟩
  have hall : ∀ x ∈ allVecs 7, 2 ≤ (syndrome x).sum →
      ((List.transpose H).findIdx? (· == syndrome x)).isSome = true ∧
      (parity_check x).isOk = true ∧ (decoder x).isOk = true := by decide
  exact hall c (mem_allVecs hlen hbits)

/-- Witness for C5 at the corrupted codeword `[1,0,1,1,1,1,0]` (the
codeword of `[1,0,1,0]` with bit position 5 flipped; its syndrome is
`[1,0,1]`, weight 2, so the weight-2 hypothesis of the search-success
conjunct is exercised). -/
theorem syndrome_lookup_total_witness :
    2 ≤ (syndrome [1, 0, 1, 1, 1, 1, 0]).sum ∧
    ((List.transpose H).Nodup ∧
    (∀ v ∈ allVecs 3, (v ∈ List.transpose H ↔ v ≠ [0, 0, 0])) ∧
    (((List.transpose H).findIdx? (· == syndrome [1, 0, 1, 1, 1, 1, 0])).isSome = true ∧
      (parity_check [1, 0, 1, 1, 1, 1, 0]).isOk = true ∧
      (decoder [1, 0, 1, 1, 1, 1, 0]).isOk = true)) :=
  ⟨by decide,
    (syndrome_lookup_total [1, 0, 1, 1, 1, 1, 0] (by decide) (by decide)).1,
    (syndrome_lookup_total [1, 0, 1, 1, 1, 1, 0] (by decide) (by decide)).2.1,
    (syndrome_lookup_total [1, 0, 1, 1, 1, 1, 0] (by decide) (by decide)).2.2 (by decide)⟩

/-- C6: for every 7-bit 0/1 vector `c`, the syndrome `H · c mod 2` is
zero exactly when `c` is a codeword of the encoder, i.e. `c = G · m mod
2` for some 4-bit 0/1 message `m`. -/
theorem syndrome_zero_iff_codeword (c : List Nat) (hlen : c.length = 7)
    (hbits : ∀ b ∈ c, b = 0 ∨ b = 1) :
    syndrome c = [0, 0, 0] ↔
      ∃ m, m.length = 4 ∧ (∀ b ∈ m, b = 0 ∨ b = 1) ∧ encoder m = c := by
  have hall : ∀ x ∈ allVecs 7,
      (syndrome x = [0, 0, 0] ↔ ∃ m ∈ allVecs 4, encoder m = x) := by decide
  have h := hall c (mem_allVecs hlen hbits)
  constructor
  · intro h0
    obtain ⟨m, hm, hme⟩ := h.mp h0
    obtain ⟨hl, hb⟩ := allVecs_mem hm
    exact ⟨m, hl, hb, hme⟩
  · rintro ⟨m, hl, hb, hme⟩
    exact h.mpr ⟨m, mem_allVecs hl hb, hme⟩

/-- Witness for C6 at the codeword of message `[1,0,1,0]`. -/
theorem syndrome_zero_iff_codeword_witness :
    syndrome [1, 0, 1, 1, 0, 1, 0] = [0, 0, 0] ↔
      ∃ m, m.length = 4 ∧ (∀ b ∈ m, b = 0 ∨ b = 1) ∧ encoder m = [1, 0, 1, 1, 0, 1, 0] :=
  syndrome_zero_iff_codeword [1, 0, 1, 1, 0, 1, 0] (by decide) (by decide)

/-- C9: whenever the decoder performs a correction, the corrected
codeword it produces has zero syndrome, hence is a valid codeword. -/
theorem corrected_codeword_valid (c : List Nat) (hlen : c.length = 7)
    (hbits : ∀ b ∈ c, b = 0 ∨ b = 1) :
    isCorrected (decodeStatus c) = true →
      (decodeFinal c).map syndrome = some [0, 0, 0] := by
  have hall : ∀ x ∈ allVecs 7, isCorrected (decodeStatus x) = true →
      (decodeFinal x).map syndrome = some [0, 0, 0] := by decide
  exact hall c (mem_allVecs hlen hbits)

/-- Witness for C9 at the corrupted codeword `[1,0,0,1,0,1,0]`, which
the decoder corrects at position 3. -/
theorem corrected_codeword_valid_witness :
    (decodeFinal [1, 0, 0, 1, 0, 1, 0]).map syndrome = some [0, 0, 0] :=
  corrected_codeword_valid [1, 0, 0, 1, 0, 1, 0] (by decide) (by decide) (by decide)

/-- C7: requesting more than two random flips raises the `ValueError`
of `bitflip_rand` and requesting a specific flip index above 6 raises
the `ValueError` of `bitflip_specific`; in both cases the exception
payload carries the input array unchanged, i.e. no bit was flipped. -/
theorem fault_injection_boundary (x : List Nat) (k : Nat) (i : Int)
    (stream : Nat → Fin 7) (fuel : Nat) (hlen : x.length = 7)
    (hbits : ∀ b ∈ x, b = 0 ∨ b = 1) (hk : 2 < k) (hi : 6 < i) :
    bitflip_rand x k stream fuel =
      some (.error
        ("ValueError: The Hamming Code only allows detecting at most two bitflips.", x)) ∧
    bitflip_specific x i = .error ("ValueError: The codeword has only 7 bits.", x) := by
  constructor
  · unfold bitflip_rand
    rw [if_pos hk]
  · unfold bitflip_specific
    rw [if_pos hi]

/-- Witness for C7 at the test-suite inputs: flip count 3 and flip
index 7 on the codeword `[1,0,1,0,1,0,1]`. -/
theorem fault_injection_boundary_witness :
    bitflip_rand [1, 0, 1, 0, 1, 0, 1] 3 (fun _ => (0 : Fin 7)) 0 =
      some (.error
        ("ValueError: The Hamming Code only allows detecting at most two bitflips.",
          [1, 0, 1, 0, 1, 0, 1])) ∧
    bitflip_specific [1, 0, 1, 0, 1, 0, 1] 7 =
      .error ("ValueError: The codeword has only 7 bits.", [1, 0, 1, 0, 1, 0, 1]) :=
  fault_injection_boundary [1, 0, 1, 0, 1, 0, 1] 3 7 (fun _ => (0 : Fin 7)) 0
    (by decide) (by decide) (by decide) (by decide)

/-- With a requested flip count of 0 the loop of `bitflip_rand` never
reaches its break condition: the set of flipped positions becomes
nonempty on the first iteration and its size is compared against 0, so
no amount of fuel makes the loop return. -/
theorem bitflipRandLoop_zero_count : ∀ (fuel : Nat) (x flipped : List Nat)
    (stream : Nat → Fin 7) (t : Nat),
    bitflipRandLoop x flipped 0 stream t fuel = none := by
  intro fuel
  induction fuel with
  | zero => intro x flipped stream t; rfl
  | succ n ih =>
    intro x flipped stream t
    cases hc : flipped.contains ((stream t).val) with
    | true =>
      have hm : ((stream t).val) ∈ flipped := by simpa using hc
      have hne : flipped.length ≠ 0 := by
        cases flipped
        · simp at hm
        · simp
      simp only [bitflipRandLoop, hc, if_true, hne, if_false]
      exact ih _ _ _ _
    | false =>
      simp only [bitflipRandLoop, hc, Bool.false_eq_true, if_false, List.length_cons,
        Nat.succ_ne_zero]
      exact ih _ _ _ _

/-- C8: `bitflip_rand` called with `number_of_bits_to_flip = 0` never
terminates, whatever the codeword, the stream of random draws and the
number of loop iterations unfolded: the loop flips a bit and records
its position before the break condition is first checked, so the set of
flipped positions never has size 0 again. -/
theorem bitflip_rand_zero_diverges (x : List Nat) (stream : Nat → Fin 7)
    (fuel : Nat) : bitflip_rand x 0 stream fuel = none := by
  unfold bitflip_rand
  rw [if_neg (by omega), bitflipRandLoop_zero_count]
  rfl

/-- C10: for every 7-bit 0/1 vector and every negative index `i` with
`-7 ≤ i ≤ -1`, `bitflip_specific` raises no error (only indices above 6
are rejected by its guard) and flips the bit at position `7 + i`,
following Python's negative indexing. -/
theorem bitflip_specific_negative_index (x : List Nat) (i : Int)
    (hlen : x.length = 7) (hbits : ∀ b ∈ x, b = 0 ∨ b = 1)
    (hlo : -7 ≤ i) (hhi : i ≤ -1) :
    bitflip_specific x i =
      .ok (x.set (i + 7).toNat (1 - x.getD (i + 7).toNat 0)) := by
  unfold bitflip_specific pyIndex
  rw [hlen, if_neg (by omega), if_neg (by omega), if_pos (by omega)]
  norm_num

/-- Witness for C10 at index `-1` on the codeword `[1,0,1,0,1,0,1]`. -/
theorem bitflip_specific_negative_index_witness :
    bitflip_specific [1, 0, 1, 0, 1, 0, 1] (-1) =
      .ok ([1, 0, 1, 0, 1, 0, 1].set ((-1 : Int) + 7).toNat
        (1 - [1, 0, 1, 0, 1, 0, 1].getD ((-1 : Int) + 7).toNat 0)) :=
  bitflip_specific_negative_index [1, 0, 1, 0, 1, 0, 1] (-1)
    (by decide) (by decide) (by decide) (by decide)

end HammingCode
